import Mathlib

/-!
Verification of the train-schedule route finder (`src/main.py`).

The program ingests schedule records, builds a dense weight matrix over the
sorted station set, runs a constrained nearest-neighbor traversal, and maps
the resulting visiting sequence back onto records.

Shallow embedding conventions:
* matrix weights live in `W := WithTop ℚ` (`⊤` stands for `math.inf`;
  Python floats are modelled as rationals);
* the Python `while` loops are modelled with explicit fuel, and functions
  that can raise return `Option`/a paired error message: `none` (or an
  error value) marks the abnormal exit;
* Python list state is passed explicitly.
-/

/-- Matrix weights: a rational cost or `⊤` (`math.inf`, "no direct edge"). -/
abbrev W := WithTop ℚ

/-- One schedule record (one CSV row `[id, origin, destination, price,
departure, arrival]`).  The price field is pre-parsed into a rational (the
CSV reading and `float` parsing are input glue outside the core). -/
structure SchedRecord where
  ident : String
  origin : String
  dest : String
  price : ℚ
  dep : String
  arr : String
deriving DecidableEq, Repr

/-- Auxiliary recursion for `pySplit`: walks the character list, collecting
the current chunk (in reverse) and emitting it at each separator. -/
def pySplitAux (sep : Char) : List Char → List Char → List String
  | [], acc => [String.mk acc.reverse]
  | c :: cs, acc =>
    if c = sep then String.mk acc.reverse :: pySplitAux sep cs []
    else pySplitAux sep cs (c :: acc)

/-- Python `str.split(sep)` for a one-character separator. -/
def pySplit (sep : Char) (s : String) : List String :=
  pySplitAux sep s.data []

/-- Python `int()` on a decimal-digit string (the only inputs the program
feeds it). -/
def pyInt (s : String) : ℕ :=
  s.data.foldl (fun a c => a * 10 + (c.toNat - Char.toNat ('0'))) 0

/-- `Schedule._date_to_num`: `"HH:MM"` to minutes since midnight. -/
def date_to_num (date : String) : ℤ :=
  let parts := pySplit (':') date
  (pyInt (parts.getD 0 ("")) : ℤ) * 60 + (pyInt (parts.getD 1 ("")) : ℤ)

/-- `Schedule._get_weight_from_time`: minutes from departure to arrival,
wrapping one full day (1440 minutes) unless the arrival minute is strictly
greater than the departure minute. -/
def get_weight_from_time (departure arrival : String) : ℤ :=
  let num1 := date_to_num departure
  let num2 := date_to_num arrival
  if num1 < num2 then num2 - num1 else (num2 + 1440) - num1

/-- Weight of a record in `price` mode: `float(schedule[3])`. -/
def price_weight (schedule : SchedRecord) : ℚ := schedule.price

/-- Weight of a record in `time` mode:
`_get_weight_from_time(schedule[4], schedule[5])`. -/
def time_weight (schedule : SchedRecord) : ℚ :=
  (get_weight_from_time schedule.dep schedule.arr : ℚ)

/-- Python `round(x, 2)` (ties are not exercised by the program's data;
binary-float artifacts of CPython are not modelled). -/
def round2 (x : ℚ) : ℚ := (round (x * 100) : ℤ) / 100

/-- `price`-mode result formatter: `f"{round(x, 2)}$"`. -/
def formatting_result_price (x : ℚ) : String :=
  toString (round2 x) ++ "$"

/-- `time`-mode result formatter: `f"{x // 60} hours and {x % 64} minutes"`.
The total in `time` mode is a machine integer, modelled as `ℕ`.  Note the
source really divides the minute remainder by `64`. -/
def formatting_result_time (x : ℕ) : String :=
  toString (x / 60) ++ " hours and " ++ toString (x % 64) ++ " minutes"

/-- `time` formatter as written in the SPEC (minutes modulo 60), kept for
comparison with `formatting_result_time`. -/
def spec_time_format (x : ℕ) : String :=
  toString (x / 60) ++ " hours and " ++ toString (x % 60) ++ " minutes"

/-- `price`-mode record/leg reconciliation:
`sch[1:3] + [str(float(sch[3]))] == rout[0]`.  A route leg is the list
`[origin, destination, weight-string]`; the numeric-to-string rendering is
modelled by `toString` on `ℚ`. -/
def price_is_exect (sch : SchedRecord) (rout : List (List String)) : Bool :=
  [sch.origin, sch.dest, toString sch.price] = rout.getD 0 []

/-- `time`-mode record/leg reconciliation: recomputes the duration and
compares `[origin, destination, str(duration)]` with `route[0]`. -/
def time_is_exect (schedule : SchedRecord) (route : List (List String)) : Bool :=
  [schedule.origin, schedule.dest,
    toString (get_weight_from_time schedule.dep schedule.arr)] = route.getD 0 []

/-- `time` formatter lifted to the rational total carried by the state (the
time-mode total is a non-negative integer; embed via its floor). -/
def formatting_result_time_q (x : ℚ) : String :=
  formatting_result_time (Int.toNat ⌊x⌋)

/-- Strategy state of a `Schedule` instance: the four fields assigned by
`set_search_by`, each `none` right after `__init__`.  (The source assigns
the attribute `_is_exect_schedule`, which is also the one read by
`find_the_best_route`; the `_is_exact_schedule` slot of `__init__` is
vestigial and not modelled.) -/
structure SState where
  get_weight : Option (SchedRecord → ℚ)
  is_exect_schedule : Option (SchedRecord → List (List String) → Bool)
  formatting_result : Option (ℚ → String)
  search_mode : Option String

/-- State of a `Schedule` instance right after `__init__`. -/
def init_state : SState :=
  { get_weight := none, is_exect_schedule := none,
    formatting_result := none, search_mode := none }

/-- `Schedule.set_search_by`: installs the strategy functions for `"price"`
or `"time"`; any other name raises
`Exception(f"{param} is incorrect search mode.")`.  The returned pair is
(state after the call, raised message if any); on a raise the state is the
unmodified input state, as in Python. -/
def set_search_by (s : SState) (param : String) : SState × Option String :=
  match param with
  | "price" =>
    ({ get_weight := some price_weight,
       is_exect_schedule := some price_is_exect,
       formatting_result := some formatting_result_price,
       search_mode := some param }, none)
  | "time" =>
    ({ get_weight := some time_weight,
       is_exect_schedule := some time_is_exect,
       formatting_result := some formatting_result_time_q,
       search_mode := some param }, none)
  | _ => (s, some (param ++ " is incorrect search mode."))

/-- `Schedule._get_stations`: the sorted set of stations appearing as an
origin or a destination. -/
def get_stations (schedules : List SchedRecord) : List String :=
  ((schedules.map SchedRecord.origin) ++ schedules.map SchedRecord.dest).dedup.mergeSort
    (fun a b => decide (a ≤ b))

/-- Cell `(i, j)` of a list-of-rows matrix (`⊤` outside the bounds). -/
def cellOf (m : List (List W)) (i j : ℕ) : W := (m.getD i []).getD j ⊤

/-- `weight_matrix[i][j] = weight` on a list-of-rows matrix. -/
def update2 (m : List (List W)) (i j : ℕ) (w : W) : List (List W) :=
  m.set i ((m.getD i []).set j w)

/-- Body of the `for schedule in self.schedules` loop of
`_get_weight_matrix`: look up the record's origin/destination indices and
keep the smaller weight for that cell. -/
def wm_step (stations : List String) (gw : SchedRecord → ℚ)
    (m : List (List W)) (schedule : SchedRecord) : List (List W) :=
  let i := stations.indexOf schedule.origin
  let j := stations.indexOf schedule.dest
  let weight : W := ((gw schedule : ℚ) : W)
  if weight < cellOf m i j then update2 m i j weight else m

/-- `Schedule._get_weight_matrix`: start from an `N×N` all-infinity matrix
and, for each record, keep the smallest weight seen for its
`(origin-index, destination-index)` cell. -/
def get_weight_matrix (stations : List String) (gw : SchedRecord → ℚ)
    (schedules : List SchedRecord) : List (List W) :=
  let num_sts := stations.length
  schedules.foldl (wm_step stations gw)
    (List.replicate num_sts (List.replicate num_sts (⊤ : W)))

/-- Membership test `vor not in passed_vortices` as Python evaluates it in
`_check_vortex`: the float edge WEIGHT is compared numerically against the
integer vertex indices of the visited list. -/
def weightMem (w : W) (passed : List ℕ) : Bool :=
  passed.any (fun n => w = ((n : ℚ) : W))

/-- `Schedule._isclosevortex`: the vertex counts as blocked when it has at
most one finite connection to a not-yet-visited vertex and fewer than
`N - 2` vertices are visited. -/
def isclosevortex (graph : List (List W)) (passed : List ℕ) (vortex : ℕ) : Bool :=
  let free_vort := ((graph.getD vortex []).enum.filter
    (fun p => decide (p.2 ≠ (⊤ : W)) && decide (p.1 ∉ passed))).length
  if free_vort > 1 ∨ passed.length ≥ graph.length - 2 then false else true

/-- `Schedule._check_vortex`: a visited vertex is rejected; otherwise the
vertex is rejected exactly when some index of its row with a finite weight
whose WEIGHT value is not in the visited list (the source compares the
weight, not the index, against `passed_vortices`) is blocked per
`isclosevortex`. -/
def check_vortex (graph : List (List W)) (passed : List ℕ) (vortex : ℕ) : Bool :=
  if vortex ∈ passed then false
  else
    let conn_vors := ((graph.getD vortex []).enum.filter
      (fun p => decide (p.2 ≠ (⊤ : W)) && !(weightMem p.2 passed))).map Prod.fst
    let checked := conn_vors.filter (fun vor => isclosevortex graph passed vor)
    checked.isEmpty

/-- The filtered candidate row built at each solver step:
`[(i, weight) for i, weight in enumerate(graph[current]) if _check_vortex(...)]`. -/
def current_row (graph : List (List W)) (passed : List ℕ) (current : ℕ) :
    List (ℕ × W) :=
  (graph.getD current []).enum.filter (fun p => check_vortex graph passed p.1)

/-- Python `min(xs, key=lambda x: x[1])`: first element with the least
weight, `none` on an empty list (where CPython raises `ValueError`). -/
def pyMin (l : List (ℕ × W)) : Option (ℕ × W) :=
  match l with
  | [] => none
  | x :: xs => some (xs.foldl (fun acc p => if p.2 < acc.2 then p else acc) x)

/-- The `while True` loop of `_nearest_neighbor_algorithm`, with fuel.
`none` is the abnormal exit (empty selection, out-of-range access, or fuel
exhaustion — the successful runs need at most `N - 1` steps). -/
def nnaLoop (graph : List (List W)) :
    ℕ → ℕ → List ℕ → ℚ → Option (List ℕ × ℚ)
  | 0, _, _, _ => none
  | fuel + 1, current_vortex, passed_vortices, route_weight =>
    match pyMin (current_row graph passed_vortices current_vortex) with
    | none => none
    | some (v, min_weight) =>
      let passed2 := passed_vortices ++ [v]
      let rw2 := route_weight + min_weight.untop' 0
      if passed2.length = graph.length then some (passed2, rw2)
      else nnaLoop graph fuel v passed2 rw2

/-- `Schedule._nearest_neighbor_algorithm` (default start vertex 0). -/
def nearest_neighbor_algorithm (graph : List (List W)) (start_vortex : ℕ := 0) :
    Option (List ℕ × ℚ) :=
  nnaLoop graph graph.length start_vortex [start_vortex] 0

/-- The solver invocation of `Schedule.find_the_best_route`:
`self._nearest_neighbor_algorithm(self._weight_matrix, 1)` where the matrix
was just built from the instance's stations, strategy and records. -/
def find_the_best_route_nna (stations : List String) (gw : SchedRecord → ℚ)
    (schedules : List SchedRecord) : Option (List ℕ × ℚ) :=
  nearest_neighbor_algorithm (get_weight_matrix stations gw schedules) 1

/-- The printing loop of `find_the_best_route`: while legs remain, scan the
records for the first one matching the FIRST remaining leg (both installed
predicates read only `route[0]`), emit it and drop that leg; when no record
matches, the `for` finds nothing, nothing shrinks, and the `while` spins —
modelled by recursing on fuel with the state unchanged.  Returns the emitted
records. -/
def matLoop {α : Type} (schedules : List SchedRecord) (p : SchedRecord → α → Bool) :
    ℕ → List α → Option (List SchedRecord)
  | _, [] => some []
  | 0, _ :: _ => none
  | fuel + 1, leg :: rest =>
    match schedules.find? (fun schedule => p schedule leg) with
    | some schedule =>
      (matLoop schedules p fuel rest).map (fun out => schedule :: out)
    | none => matLoop schedules p fuel (leg :: rest)

/-- Does every successive first remaining leg have a matching record?  (The
loop consumes legs head-first, so these are exactly the legs it examines.) -/
def allMatched {α : Type} (schedules : List SchedRecord) (p : SchedRecord → α → Bool) :
    List α → Bool
  | [] => true
  | leg :: rest =>
    schedules.any (fun schedule => p schedule leg) && allMatched schedules p rest

/-- Weights of the consecutive legs of a visiting sequence, without the
wrap-around edge. -/
def leg_weights (graph : List (List W)) : List ℕ → List W
  | [] => []
  | [_] => []
  | a :: b :: rest => cellOf graph a b :: leg_weights graph (b :: rest)

/-- Sum of the consecutive edge weights of a sequence, infinite edges
contributing 0 (mirroring the solver's accumulation), without the wrap
edge. -/
def route_sum (graph : List (List W)) (seq : List ℕ) : ℚ :=
  ((leg_weights graph seq).map (fun w => w.untop' 0)).sum

/-- Sum of the consecutive edge weights INCLUDING the wrap edge from the
last vertex back to the first — the total the spec ascribes to the solver. -/
def route_sum_wrap (graph : List (List W)) (seq : List ℕ) : ℚ :=
  route_sum graph (seq ++ [seq.headD 0])

/-- The vertex `w` is "about to be stranded" as the SPEC words it: at most
one remaining finite, unvisited outgoing connection, AND at least `N - 2`
vertices already visited. -/
def spec_stranded (graph : List (List W)) (passed : List ℕ) (w : ℕ) : Bool :=
  decide ((((graph.getD w []).enum.filter
      (fun p => decide (p.2 ≠ (⊤ : W)) && decide (p.1 ∉ passed))).length ≤ 1)) &&
    decide (passed.length ≥ graph.length - 2)

/-- The feasibility filter as the SPEC words it: accept the unvisited
candidate `v` unless one of `v`'s own unvisited, finitely-reachable
neighbors is about to be stranded. -/
def spec_accepts (graph : List (List W)) (passed : List ℕ) (v : ℕ) : Bool :=
  !((((graph.getD v []).enum.filter
      (fun p => decide (p.2 ≠ (⊤ : W)) && decide (p.1 ∉ passed))).map Prod.fst).any
    (fun w => spec_stranded graph passed w))

/-! ## Helper lemmas -/

/-- `isclosevortex` holds exactly when the free-connection count is at most
one and fewer than `N - 2` vertices are visited. -/
theorem isclosevortex_iff (graph : List (List W)) (passed : List ℕ) (vortex : ℕ) :
    isclosevortex graph passed vortex = true ↔
      ((graph.getD vortex []).enum.filter
        (fun p => decide (p.2 ≠ (⊤ : W)) && decide (p.1 ∉ passed))).length ≤ 1 ∧
      passed.length < graph.length - 2 := by
  unfold isclosevortex
  show (if ((graph.getD vortex []).enum.filter
      (fun p => decide (p.2 ≠ (⊤ : W)) && decide (p.1 ∉ passed))).length > 1 ∨
      passed.length ≥ graph.length - 2 then false else true) = true ↔ _
  split
  · rename_i h
    constructor
    · intro hF
      cases hF
    · intro hC
      rcases h with h | h
      · omega
      · omega
  · rename_i h
    push_neg at h
    constructor
    · intro _
      exact ⟨by omega, h.2⟩
    · intro _
      rfl

/-! ## C1 — the feasibility filter -/

/-- C1 (amended): for an unvisited candidate `v`, the code's feasibility
filter rejects `v` exactly when some index `w` of `v`'s row carrying a
finite weight whose weight VALUE does not occur in the visited list (the
source compares the weight, not the neighbor index, against
`passed_vortices`) has at most one remaining finite, unvisited outgoing
connection AND the number of already-visited vertices is LESS than `N - 2`;
otherwise `v` is accepted. -/
theorem check_vortex_characterization (graph : List (List W)) (passed : List ℕ) (v : ℕ)
    (hv : v ∉ passed) :
    check_vortex graph passed v = false ↔
      ∃ w weight, (w, weight) ∈ (graph.getD v []).enum ∧ weight ≠ ⊤ ∧
        weightMem weight passed = false ∧
        ((graph.getD w []).enum.filter
          (fun p => decide (p.2 ≠ (⊤ : W)) && decide (p.1 ∉ passed))).length ≤ 1 ∧
        passed.length < graph.length - 2 := by
  unfold check_vortex
  rw [if_neg hv]
  rw [List.isEmpty_eq_false_iff_exists_mem]
  constructor
  · rintro ⟨x, hx⟩
    rw [List.mem_filter] at hx
    obtain ⟨hx1, hx2⟩ := hx
    rw [List.mem_map] at hx1
    obtain ⟨p, hp, rfl⟩ := hx1
    rw [List.mem_filter] at hp
    obtain ⟨hpe, hpc⟩ := hp
    rw [Bool.and_eq_true, decide_eq_true_eq, Bool.not_eq_true'] at hpc
    rw [isclosevortex_iff] at hx2
    exact ⟨p.1, p.2, hpe, hpc.1, hpc.2, hx2.1, hx2.2⟩
  · rintro ⟨w, weight, hmem, hfin, hwm, hfree, hlen⟩
    refine ⟨w, ?_⟩
    rw [List.mem_filter]
    constructor
    · rw [List.mem_map]
      refine ⟨(w, weight), ?_, rfl⟩
      rw [List.mem_filter]
      exact ⟨hmem, by rw [Bool.and_eq_true, decide_eq_true_eq, Bool.not_eq_true']; exact ⟨hfin, hwm⟩⟩
    · rw [isclosevortex_iff]
      exact ⟨hfree, hlen⟩

/-- C1 witness: the characterization applied to a concrete graph and state.
With one vertex visited out of four, vertex 1 is rejected because its
neighbor 2 has no remaining free connection. -/
theorem check_vortex_characterization_witness :
    check_vortex [[⊤,⊤,⊤,⊤],[⊤,⊤,((5:ℚ):W),⊤],[((3:ℚ):W),⊤,⊤,⊤],[⊤,⊤,⊤,⊤]] [0] 1 = false ↔
      ∃ w weight,
        (w, weight) ∈ ([[⊤,⊤,⊤,⊤],[⊤,⊤,((5:ℚ):W),⊤],[((3:ℚ):W),⊤,⊤,⊤],[⊤,⊤,⊤,⊤]].getD 1 []).enum ∧
        weight ≠ ⊤ ∧ weightMem weight [0] = false ∧
        (([[⊤,⊤,⊤,⊤],[⊤,⊤,((5:ℚ):W),⊤],[((3:ℚ):W),⊤,⊤,⊤],[⊤,⊤,⊤,⊤]].getD w []).enum.filter
          (fun p => decide (p.2 ≠ (⊤ : W)) && decide (p.1 ∉ [0]))).length ≤ 1 ∧
        ([0] : List ℕ).length < ([[⊤,⊤,⊤,⊤],[⊤,⊤,((5:ℚ):W),⊤],[((3:ℚ):W),⊤,⊤,⊤],[⊤,⊤,⊤,⊤]] : List (List W)).length - 2 :=
  check_vortex_characterization _ [0] 1 (by decide)

/-- C1 counterexample: the filter as the SPEC states it accepts vertex 1
here (no neighbor is "stranded", since only 1 < N − 2 vertices are
visited), yet the code rejects it — the code blocks vertices when the
visited count is LESS than `N − 2`, not at least `N − 2`. -/
theorem check_vortex_spec_counterexample :
    check_vortex [[⊤,⊤,⊤,⊤],[⊤,⊤,((5:ℚ):W),⊤],[((3:ℚ):W),⊤,⊤,⊤],[⊤,⊤,⊤,⊤]] [0] 1 = false ∧
    spec_accepts [[⊤,⊤,⊤,⊤],[⊤,⊤,((5:ℚ):W),⊤],[((3:ℚ):W),⊤,⊤,⊤],[⊤,⊤,⊤,⊤]] [0] 1 = true ∧
    (1 : ℕ) ∉ ([0] : List ℕ) :=
  ⟨by decide, by decide, by decide⟩

/-! ## C2 — time-mode weight examples -/

/-- C2 (amended): the time-mode weight of departure 23:50 / arrival 00:10
is 20, and of departure 09:00 / arrival 09:00 (same instant) is 1440, not
0: `num1 < num2` is false for equal instants, so the overnight wrap
applies. -/
theorem time_weight_examples :
    get_weight_from_time ("23:50") ("00:10") = 20 ∧
    get_weight_from_time ("09:00") ("09:00") = 1440 :=
  ⟨by decide, by decide⟩

/-- C2 counterexample: on the same-instant pair the function returns 1440,
not 0 as claimed. -/
theorem time_weight_same_instant_counterexample :
    get_weight_from_time ("09:00") ("09:00") = 1440 ∧ (1440 : ℤ) ≠ 0 :=
  ⟨by decide, by decide⟩

/-! ## C7 — the time formatter -/

/-- C7 (code bug): at the failing input 125 the code formats the minute
remainder modulo 64 — "2 hours and 61 minutes" — where the claimed (and
evidently intended) modulo-60 rendering is "2 hours and 5 minutes". -/
theorem time_format_modulo_bug :
    formatting_result_time 125 = "2 hours and 61 minutes" ∧
    spec_time_format 125 = "2 hours and 5 minutes" ∧
    formatting_result_time 125 ≠ spec_time_format 125 :=
  ⟨by decide, by decide, by decide⟩

/-! ## C8 — unknown search mode -/

/-- C8: for any mode name other than "price" and "time", `set_search_by`
raises the configuration error and returns the strategy state unchanged, so
no graph can be built with a strategy installed from an unrecognized
name. -/
theorem set_search_by_unknown_mode (s : SState) (param : String)
    (h1 : param ≠ "price") (h2 : param ≠ "time") :
    set_search_by s param = (s, some (param ++ " is incorrect search mode.")) := by
  unfold set_search_by
  split
  · exact absurd rfl h1
  · exact absurd rfl h2
  · rfl

/-- C8 witness: the unknown mode "foo" raises and leaves the freshly
constructed state untouched. -/
theorem set_search_by_unknown_mode_witness :
    set_search_by init_state "foo" = (init_state, some ("foo is incorrect search mode.")) :=
  set_search_by_unknown_mode init_state "foo" (by decide) (by decide)

/-! ## C4 — the candidate set at each solver step -/

/-- C4 (amended): every pair in the filtered candidate row is an unvisited
vertex together with its matrix weight from the current vertex — but that
weight may be infinite, since the enumeration applies no finiteness filter
of its own; and when the filter leaves no candidate at all the step's
minimum selection has nothing to select and the solver run aborts
(`ValueError` in CPython, `none` here). -/
theorem nna_candidates_characterization :
    (∀ (graph : List (List W)) (passed : List ℕ) (current v : ℕ) (w : W),
        (v, w) ∈ current_row graph passed current →
          v ∉ passed ∧ w = cellOf graph current v) ∧
    (∀ (graph : List (List W)) (fuel current : ℕ) (passed : List ℕ) (acc : ℚ),
        current_row graph passed current = [] →
          nnaLoop graph (fuel + 1) current passed acc = none) := by
  constructor
  · intro graph passed current v w hmem
    rw [current_row, List.mem_filter] at hmem
    obtain ⟨henum, hcheck⟩ := hmem
    constructor
    · intro hvp
      rw [check_vortex, if_pos hvp] at hcheck
      cases hcheck
    · have h2 := List.mem_enum_iff_getElem?.mp henum
      simp only at h2
      rw [cellOf, List.getD_eq_getElem?_getD, h2]
      rfl
  · intro graph fuel current passed acc h
    rw [nnaLoop, h]
    rfl

/-- C4 witness: both halves applied at concrete inputs — the candidate
`(1, ⊤)` of a 2-vertex edgeless graph, and a 4-vertex graph whose first
step rejects every vertex, aborting the loop. -/
theorem nna_candidates_characterization_witness :
    ((1 : ℕ) ∉ ([0] : List ℕ) ∧ (⊤ : W) = cellOf [[(⊤:W),⊤],[⊤,⊤]] 0 1) ∧
    nnaLoop [[(⊤:W),⊤,⊤,((7:ℚ):W)],[⊤,⊤,((5:ℚ):W),⊤],[((3:ℚ):W),⊤,⊤,⊤],[⊤,⊤,((6:ℚ):W),⊤]]
      (3 + 1) 0 [0] 0 = none :=
  ⟨nna_candidates_characterization.1 [[(⊤:W),⊤],[⊤,⊤]] [0] 0 1 (⊤ : W) (by decide),
   nna_candidates_characterization.2 _ 3 0 [0] 0 (by decide)⟩

/-- C4 counterexample: in the edgeless 2-vertex graph the candidate set of
the first step contains `(1, ⊤)` — an unvisited vertex whose edge weight
from the current vertex is NOT finite — and the solver, far from raising,
selects it and returns normally with total 0. -/
theorem nna_candidates_infinite_counterexample :
    (1, (⊤ : W)) ∈ current_row [[(⊤:W),⊤],[⊤,⊤]] [0] 0 ∧
    ¬ ((⊤ : W) ≠ ⊤) ∧
    nearest_neighbor_algorithm [[(⊤:W),⊤],[⊤,⊤]] 0 = some ([0, 1], 0 + (⊤ : W).untop' 0) ∧
    ((0 : ℚ) + (⊤ : W).untop' 0) = 0 :=
  ⟨by decide, by simp, by rfl, by simp⟩

/-! ## C9 — termination of the materializer's printing loop -/

/-- Whenever the printing loop completes, it has printed exactly one
matched record per leg. -/
theorem matLoop_length {α : Type} (schedules : List SchedRecord) (p : SchedRecord → α → Bool) :
    ∀ (fuel : ℕ) (route : List α) (out : List SchedRecord),
      matLoop schedules p fuel route = some out → out.length = route.length := by
  intro fuel
  induction fuel with
  | zero =>
    intro route out h
    cases route with
    | nil =>
      rw [matLoop] at h
      cases h
      rfl
    | cons leg rest => cases h
  | succ f ih =>
    intro route out h
    cases route with
    | nil =>
      rw [matLoop] at h
      cases h
      rfl
    | cons leg rest =>
      rw [matLoop] at h
      cases hf : schedules.find? (fun schedule => p schedule leg) with
      | some schedule =>
        rw [hf] at h
        simp only [Option.map_eq_some'] at h
        obtain ⟨out', hout', rfl⟩ := h
        simp [ih rest out' hout']
      | none =>
        rw [hf] at h
        have := ih (leg :: rest) out h
        simpa using this

/-- If some successive first leg has no matching record, the loop never
completes, whatever the fuel: the state stops shrinking and the `while`
spins forever. -/
theorem matLoop_stalls {α : Type} (schedules : List SchedRecord) (p : SchedRecord → α → Bool) :
    ∀ (fuel : ℕ) (route : List α), allMatched schedules p route = false →
      matLoop schedules p fuel route = none := by
  intro fuel
  induction fuel with
  | zero =>
    intro route h
    cases route with
    | nil => rw [allMatched] at h; cases h
    | cons leg rest => rfl
  | succ f ih =>
    intro route h
    cases route with
    | nil => rw [allMatched] at h; cases h
    | cons leg rest =>
      rw [allMatched, Bool.and_eq_false_iff] at h
      rw [matLoop]
      cases hf : schedules.find? (fun schedule => p schedule leg) with
      | some schedule =>
        have hany : schedules.any (fun schedule => p schedule leg) = true := by
          rw [List.any_eq_true]
          refine ⟨schedule, List.mem_of_find?_eq_some hf, ?_⟩
          have := List.find?_some hf
          simpa using this
        rcases h with h | h
        · rw [hany] at h; cases h
        · rw [ih rest h]
          rfl
      | none =>
        apply ih
        rw [allMatched, Bool.and_eq_false_iff]
        exact h

/-- If every successive first leg has a matching record, the loop
completes within `route.length` iterations. -/
theorem matLoop_completes {α : Type} (schedules : List SchedRecord) (p : SchedRecord → α → Bool) :
    ∀ (route : List α), allMatched schedules p route = true →
      ∃ out, matLoop schedules p route.length route = some out := by
  intro route
  induction route with
  | nil => exact fun _ => ⟨[], rfl⟩
  | cons leg rest ih =>
    intro h
    rw [allMatched, Bool.and_eq_true] at h
    obtain ⟨hany, hrest⟩ := h
    rw [List.any_eq_true] at hany
    obtain ⟨schedule, hs, hps⟩ := hany
    have hsome : (schedules.find? (fun schedule => p schedule leg)).isSome :=
      List.find?_isSome.mpr ⟨schedule, hs, hps⟩
    obtain ⟨schedule', hf⟩ := Option.isSome_iff_exists.mp hsome
    obtain ⟨out, hout⟩ := ih hrest
    refine ⟨schedule' :: out, ?_⟩
    show matLoop schedules p (rest.length + 1) (leg :: rest) = _
    rw [matLoop, hf, hout]
    rfl

/-- C9: the materializer's printing loop terminates — printing exactly one
matched record line per remaining leg — if and only if at each iteration
the first remaining leg is matched by at least one record under the active
equality rule; when some leg matches no record the loop stalls forever
instead of raising an error. -/
theorem materializer_terminates_iff {α : Type} (schedules : List SchedRecord)
    (p : SchedRecord → α → Bool) (route : List α) :
    ((∃ fuel out, matLoop schedules p fuel route = some out) ↔
        allMatched schedules p route = true) ∧
    (∀ fuel out, matLoop schedules p fuel route = some out → out.length = route.length) ∧
    (allMatched schedules p route = false →
        ∀ fuel, matLoop schedules p fuel route = none) := by
  refine ⟨⟨?_, ?_⟩, ?_, ?_⟩
  · rintro ⟨fuel, out, h⟩
    by_contra hbad
    rw [Bool.not_eq_true] at hbad
    rw [matLoop_stalls schedules p fuel route hbad] at h
    cases h
  · intro h
    obtain ⟨out, hout⟩ := matLoop_completes schedules p route h
    exact ⟨route.length, out, hout⟩
  · exact fun fuel out h => matLoop_length schedules p fuel route out h
  · exact fun h fuel => matLoop_stalls schedules p fuel route h

/-- C9 witness: a one-record, one-leg instance whose leg is matched, hence
the loop terminates. -/
theorem materializer_terminates_iff_witness :
    ∃ fuel out,
      matLoop [⟨"1", "A", "B", 10, "08:00", "08:30"⟩] (fun _ (_ : ℕ) => true) fuel [0]
        = some out :=
  (materializer_terminates_iff [⟨"1", "A", "B", 10, "08:00", "08:30"⟩]
    (fun _ (_ : ℕ) => true) [0]).1.mpr (by decide)

/-! ## Solver lemmas, C6 and C10 -/

/-- The running fold of Python `min` stays within the candidates seen. -/
theorem pyMin_mem_aux (xs : List (ℕ × W)) :
    ∀ a : ℕ × W, xs.foldl (fun acc p => if p.2 < acc.2 then p else acc) a ∈ a :: xs := by
  induction xs with
  | nil => intro a; exact List.mem_singleton.mpr rfl
  | cons b t ih =>
    intro a
    rw [List.foldl_cons]
    by_cases hb : b.2 < a.2
    · rw [if_pos hb]
      rcases List.mem_cons.mp (ih b) with h1 | h1
      · rw [h1]; right; left
      · right; right; exact h1
    · rw [if_neg hb]
      rcases List.mem_cons.mp (ih a) with h1 | h1
      · rw [h1]; left
      · right; right; exact h1

/-- Python `min` returns an element of its list. -/
theorem pyMin_mem {l : List (ℕ × W)} {x : ℕ × W} (h : pyMin l = some x) : x ∈ l := by
  cases l with
  | nil => cases h
  | cons a xs =>
    rw [pyMin] at h
    have := pyMin_mem_aux xs a
    rw [Option.some_inj] at h
    exact h ▸ this

/-- Python `min` fails (raises `ValueError`) only on the empty list. -/
theorem pyMin_eq_none {l : List (ℕ × W)} (h : pyMin l = none) : l = [] := by
  cases l with
  | nil => rfl
  | cons a xs => cases h

/-- A member of the filtered candidate row is an unvisited in-range index
paired with its matrix weight. -/
theorem mem_current_row {graph : List (List W)} {passed : List ℕ} {current v : ℕ} {w : W}
    (hmem : (v, w) ∈ current_row graph passed current) :
    v ∉ passed ∧ w = cellOf graph current v ∧ v < (graph.getD current []).length := by
  rw [current_row, List.mem_filter] at hmem
  obtain ⟨henum, hcheck⟩ := hmem
  have h2 := List.mem_enum_iff_getElem?.mp henum
  simp only at h2
  refine ⟨?_, ?_, ?_⟩
  · intro hvp
    rw [check_vortex, if_pos hvp] at hcheck
    cases hcheck
  · rw [cellOf, List.getD_eq_getElem?_getD, h2]
    rfl
  · exact (List.getElem?_eq_some.mp h2).1

/-- A successful solver run returns a sequence extending the visited list
it started from. -/
theorem nnaLoop_extends (graph : List (List W)) :
    ∀ (fuel current : ℕ) (passed : List ℕ) (acc : ℚ) (seq : List ℕ) (total : ℚ),
      nnaLoop graph fuel current passed acc = some (seq, total) →
      ∃ rest, seq = passed ++ rest := by
  intro fuel
  induction fuel with
  | zero => intro current passed acc seq total h; cases h
  | succ f ih =>
    intro current passed acc seq total h
    rw [nnaLoop] at h
    cases hm : pyMin (current_row graph passed current) with
    | none => rw [hm] at h; cases h
    | some vw =>
      obtain ⟨v, w⟩ := vw
      rw [hm] at h
      simp only at h
      split at h
      · rw [Option.some_inj] at h
        have := congrArg Prod.fst h
        simp only at this
        exact ⟨[v], this.symm⟩
      · obtain ⟨rest', hrest'⟩ := ih v (passed ++ [v]) _ seq total h
        exact ⟨v :: rest', by simpa using hrest'⟩

/-- In a square matrix every row access is bounded by the vertex count. -/
theorem row_length_le (graph : List (List W))
    (hsq : ∀ row ∈ graph, row.length = graph.length) (current : ℕ) :
    (graph.getD current []).length ≤ graph.length := by
  rcases Nat.lt_or_ge current graph.length with hc | hc
  · refine le_of_eq (hsq _ ?_)
    rw [List.getD_eq_getElem?_getD, List.getElem?_eq_getElem hc]
    exact List.getElem_mem hc
  · rw [List.getD_eq_getElem?_getD, List.getElem?_eq_none hc]
    simp

/-- A duplicate-free list of `n` naturals below `n` is a permutation of
`range n`. -/
theorem perm_range_of_nodup {l : List ℕ} {n : ℕ} (hnd : l.Nodup)
    (hlt : ∀ x ∈ l, x < n) (hlen : l.length = n) : l.Perm (List.range n) := by
  refine (List.subperm_of_subset hnd ?_).perm_of_length_le ?_
  · intro x hx
    rw [List.mem_range]
    exact hlt x hx
  · simp [hlen]

/-- Solver invariant: starting from a duplicate-free, in-range visited
list, a successful run returns a duplicate-free, in-range sequence of
length `N`. -/
theorem nnaLoop_some_inv (graph : List (List W))
    (hsq : ∀ row ∈ graph, row.length = graph.length) :
    ∀ (fuel current : ℕ) (passed : List ℕ) (acc : ℚ) (seq : List ℕ) (total : ℚ),
      nnaLoop graph fuel current passed acc = some (seq, total) →
      passed.Nodup → (∀ x ∈ passed, x < graph.length) →
      seq.Nodup ∧ (∀ x ∈ seq, x < graph.length) ∧ seq.length = graph.length := by
  intro fuel
  induction fuel with
  | zero => intro current passed acc seq total h _ _; cases h
  | succ f ih =>
    intro current passed acc seq total h hnd hlt
    rw [nnaLoop] at h
    cases hm : pyMin (current_row graph passed current) with
    | none => rw [hm] at h; cases h
    | some vw =>
      obtain ⟨v, w⟩ := vw
      rw [hm] at h
      simp only at h
      obtain ⟨hvp, hw, hvlen⟩ := mem_current_row (pyMin_mem hm)
      have hvN : v < graph.length := lt_of_lt_of_le hvlen (row_length_le graph hsq current)
      have hnd2 : (passed ++ [v]).Nodup := by
        rw [List.nodup_append]
        exact ⟨hnd, List.nodup_singleton v, by simpa [List.disjoint_singleton] using hvp⟩
      have hlt2 : ∀ x ∈ passed ++ [v], x < graph.length := by
        intro x hx
        rcases List.mem_append.mp hx with hx | hx
        · exact hlt x hx
        · rw [List.mem_singleton] at hx
          omega
      split at h
      · rename_i hdone
        rw [Option.some_inj, Prod.mk.injEq] at h
        obtain ⟨h1, _⟩ := h
        subst h1
        exact ⟨hnd2, hlt2, hdone⟩
      · exact ih v (passed ++ [v]) _ seq total h hnd2 hlt2

/-- C6: whenever the solver returns normally on an `N`-vertex square
matrix from a valid start index, the visiting sequence has length exactly
`N`, begins with the start index, and is a permutation of `0..N-1`. -/
theorem nna_result_is_permutation (graph : List (List W)) (start : ℕ)
    (hsq : ∀ row ∈ graph, row.length = graph.length)
    (hstart : start < graph.length) (seq : List ℕ) (total : ℚ)
    (h : nearest_neighbor_algorithm graph start = some (seq, total)) :
    seq.length = graph.length ∧ seq.head? = some start ∧
      seq.Perm (List.range graph.length) := by
  unfold nearest_neighbor_algorithm at h
  have hinv := nnaLoop_some_inv graph hsq graph.length start [start] 0 seq total h
    (List.nodup_singleton start) (by simpa using hstart)
  obtain ⟨rest, hrest⟩ := nnaLoop_extends graph graph.length start [start] 0 seq total h
  refine ⟨hinv.2.2, ?_, perm_range_of_nodup hinv.1 hinv.2.1 hinv.2.2⟩
  rw [hrest]
  rfl

/-- C6 witness: a concrete 2-vertex run. -/
theorem nna_result_is_permutation_witness :
    ([0, 1] : List ℕ).length = ([[⊤, ((2:ℚ):W)], [((3:ℚ):W), ⊤]] : List (List W)).length ∧
    ([0, 1] : List ℕ).head? = some 0 ∧
    ([0, 1] : List ℕ).Perm
      (List.range ([[⊤, ((2:ℚ):W)], [((3:ℚ):W), ⊤]] : List (List W)).length) :=
  nna_result_is_permutation [[⊤, ((2:ℚ):W)], [((3:ℚ):W), ⊤]] 0 (by decide) (by decide)
    [0, 1] (0 + (((2:ℚ):W)).untop' 0) (by rfl)

/-- C10: `find_the_best_route` invokes the solver with start index 1, so
any visiting sequence it obtains begins with index 1, never with the
default start index 0. -/
theorem find_best_route_starts_at_index_one (stations : List String)
    (gw : SchedRecord → ℚ) (schedules : List SchedRecord)
    (hn : 2 ≤ stations.length) (seq : List ℕ) (total : ℚ)
    (h : find_the_best_route_nna stations gw schedules = some (seq, total)) :
    seq.head? = some 1 ∧ seq.head? ≠ some 0 := by
  unfold find_the_best_route_nna nearest_neighbor_algorithm at h
  obtain ⟨rest, hrest⟩ := nnaLoop_extends _ _ _ _ _ _ _ h
  subst hrest
  exact ⟨rfl, by simp⟩

/-- C10 witness: a concrete two-station instance. -/
theorem find_best_route_starts_at_index_one_witness :
    ([1, 0] : List ℕ).head? = some 1 ∧ ([1, 0] : List ℕ).head? ≠ some 0 :=
  find_best_route_starts_at_index_one ["A", "B"] price_weight
    [⟨"1", "A", "B", 2, "08:00", "09:00"⟩, ⟨"2", "B", "A", 3, "09:00", "10:00"⟩]
    (by decide) [1, 0] (0 + (((3:ℚ):W)).untop' 0) (by rfl)

/-! ## C3 — the fully connected four-station guarantee -/

/-- A list holding two distinct elements has length at least two. -/
theorem two_le_length_of_mem {α : Type} {x y : α} {l : List α}
    (hx : x ∈ l) (hy : y ∈ l) (hxy : x ≠ y) : 2 ≤ l.length := by
  cases l with
  | nil => cases hx
  | cons a t =>
    cases t with
    | nil =>
      rw [List.mem_singleton] at hx hy
      exact absurd (hx.trans hy.symm) hxy
    | cons b u => simp only [List.length_cons]; omega

/-- A filter keeping two distinct elements has length at least two. -/
theorem two_le_length_filter {α : Type} {l : List α} {p : α → Bool} {a b : α}
    (ha : a ∈ l) (hb : b ∈ l) (hab : a ≠ b) (hpa : p a = true) (hpb : p b = true) :
    2 ≤ (l.filter p).length :=
  two_le_length_of_mem (List.mem_filter.mpr ⟨ha, hpa⟩) (List.mem_filter.mpr ⟨hb, hpb⟩) hab

/-- Among four vertices, at least two avoid any two given ones. -/
theorem range4_pick (j s : ℕ) (hj : j < 4) (hs : s < 4) :
    2 ≤ ((List.range 4).filter (fun k => decide (k ≠ j) && decide (k ≠ s))).length := by
  interval_cases j <;> interval_cases s <;> decide

/-- A list of length at least two yields two distinct members when it has
no duplicates. -/
theorem exists_two_mem {l : List ℕ} (h2 : 2 ≤ l.length) (hnd : l.Nodup) :
    ∃ a b, a ∈ l ∧ b ∈ l ∧ a ≠ b := by
  cases l with
  | nil => simp at h2
  | cons a t =>
    cases t with
    | nil => simp at h2
    | cons b u =>
      refine ⟨a, b, List.mem_cons_self a _, List.mem_cons.mpr (Or.inr (List.mem_cons_self b _)), ?_⟩
      intro hab
      subst hab
      simp [List.nodup_cons] at hnd
  
/-- Every in-range index appears in the enumeration with its entry. -/
theorem mem_enum_getD {l : List W} {k : ℕ} (hk : k < l.length) :
    (k, l.getD k ⊤) ∈ l.enum := by
  rw [List.mem_enum_iff_getElem?]
  simp only
  rw [List.getD_eq_getElem?_getD, List.getElem?_eq_getElem hk]
  rfl

/-- Fewer than four visited vertices leave some vertex below four
unvisited. -/
theorem exists_unvisited {passed : List ℕ} (hlen : passed.length < 4) :
    ∃ v, v < 4 ∧ v ∉ passed := by
  by_contra hbad
  push_neg at hbad
  have hsub : List.range 4 ⊆ passed := by
    intro x hx
    rw [List.mem_range] at hx
    exact hbad x hx
  have := (List.subperm_of_subset (List.nodup_range 4) hsub).length_le
  simp at this
  omega

/-- Once at least `N - 2` vertices are visited, no vertex counts as
blocked. -/
theorem isclose_false_of_late {graph : List (List W)} {passed : List ℕ} (j : ℕ)
    (h : graph.length - 2 ≤ passed.length) : isclosevortex graph passed j = false := by
  unfold isclosevortex
  exact if_pos (Or.inr h)

/-- On a fully connected 4-vertex matrix with one visited vertex, every
vertex keeps at least two free connections, so none counts as blocked. -/
theorem isclose_false_first {graph : List (List W)} (hlen4 : graph.length = 4)
    (hrows : ∀ row ∈ graph, row.length = 4)
    (hconn : ∀ i j : ℕ, i < 4 → j < 4 → i ≠ j → cellOf graph i j ≠ ⊤)
    {s : ℕ} (hs : s < 4) {j : ℕ} (hj : j < 4) :
    isclosevortex graph [s] j = false := by
  have hrowj : (graph.getD j []).length = 4 := by
    refine hrows _ ?_
    rw [List.getD_eq_getElem?_getD, List.getElem?_eq_getElem (by omega)]
    exact List.getElem_mem (by omega)
  obtain ⟨k1, k2, hk1, hk2, hk12⟩ :=
    exists_two_mem (range4_pick j s hj hs) ((List.nodup_range 4).filter _)
  rw [List.mem_filter, List.mem_range, Bool.and_eq_true, decide_eq_true_eq,
    decide_eq_true_eq] at hk1 hk2
  have hmem1 := mem_enum_getD (l := graph.getD j []) (k := k1) (by omega)
  have hmem2 := mem_enum_getD (l := graph.getD j []) (k := k2) (by omega)
  have hfree : 2 ≤ ((graph.getD j []).enum.filter
      (fun p => decide (p.2 ≠ (⊤ : W)) && decide (p.1 ∉ [s]))).length := by
    refine two_le_length_filter hmem1 hmem2 ?_ ?_ ?_
    · intro hpair
      exact hk12 (congrArg Prod.fst hpair)
    · rw [Bool.and_eq_true, decide_eq_true_eq, decide_eq_true_eq]
      refine ⟨hconn j k1 hj (by omega) (fun hjk => hk1.2.1 hjk.symm), ?_⟩
      rw [List.mem_singleton]
      exact hk1.2.2
    · rw [Bool.and_eq_true, decide_eq_true_eq, decide_eq_true_eq]
      refine ⟨hconn j k2 hj (by omega) (fun hjk => hk2.2.1 hjk.symm), ?_⟩
      rw [List.mem_singleton]
      exact hk2.2.2
  unfold isclosevortex
  refine if_pos (Or.inl ?_)
  omega

/-- An unvisited vertex is accepted whenever no index of its row counts as
blocked. -/
theorem check_vortex_true_of {graph : List (List W)} {passed : List ℕ} {v : ℕ}
    (hv : v ∉ passed)
    (hno : ∀ w, w < (graph.getD v []).length → isclosevortex graph passed w = false) :
    check_vortex graph passed v = true := by
  unfold check_vortex
  rw [if_neg hv]
  rw [List.isEmpty_iff]
  rw [List.filter_eq_nil_iff]
  intro w hw
  rw [List.mem_map] at hw
  obtain ⟨p, hp, rfl⟩ := hw
  rw [List.mem_filter] at hp
  have hlt := (List.getElem?_eq_some.mp (List.mem_enum_iff_getElem?.mp hp.1)).1
  rw [hno p.1 hlt]
  simp

/-- Python `min` succeeds on a non-empty list. -/
theorem pyMin_isSome {l : List (ℕ × W)} (h : l ≠ []) : ∃ x, pyMin l = some x := by
  cases l with
  | nil => exact absurd rfl h
  | cons a xs => exact ⟨_, rfl⟩

/-- The leg sum of a two-vertex sequence is its single edge weight. -/
theorem route_sum_pair (graph : List (List W)) (a b : ℕ) :
    route_sum graph [a, b] = (cellOf graph a b).untop' 0 := by
  simp [route_sum, leg_weights]

/-- Peeling the first leg off a leg sum. -/
theorem route_sum_cons (graph : List (List W)) (a b : ℕ) (l : List ℕ) :
    route_sum graph (a :: b :: l) = (cellOf graph a b).untop' 0 + route_sum graph (b :: l) := by
  simp [route_sum, leg_weights]

/-- On a fully connected 4-vertex matrix the solver never runs out of
candidates: from any mid-run state it completes, returning the extended
sequence and accumulating exactly the traversed leg weights. -/
theorem nna_run_success (graph : List (List W)) (hlen4 : graph.length = 4)
    (hrows : ∀ row ∈ graph, row.length = 4)
    (hconn : ∀ i j : ℕ, i < 4 → j < 4 → i ≠ j → cellOf graph i j ≠ ⊤) :
    ∀ (fuel : ℕ) (passed : List ℕ) (current : ℕ) (acc : ℚ),
      passed.Nodup → (∀ x ∈ passed, x < 4) → current ∈ passed →
      1 ≤ passed.length → passed.length < 4 → 4 - passed.length ≤ fuel →
      ∃ rest total, nnaLoop graph fuel current passed acc = some (passed ++ rest, total) ∧
        total = acc + route_sum graph (current :: rest) := by
  intro fuel
  induction fuel with
  | zero =>
    intro passed current acc _ _ _ _ hlt4 hfuel
    omega
  | succ f ih =>
    intro passed current acc hnd hbound hcur h1 hlt4 hfuel
    -- in both regimes no vertex below 4 counts as blocked
    have hno : ∀ w, w < 4 → isclosevortex graph passed w = false := by
      intro w hw
      rcases Nat.lt_or_ge passed.length 2 with hp2 | hp2
      · have hp1 : passed.length = 1 := by omega
        obtain ⟨s, hs⟩ := List.length_eq_one.mp hp1
        subst hs
        have hs4 : s < 4 := hbound s (List.mem_singleton.mpr rfl)
        exact isclose_false_first hlen4 hrows hconn hs4 hw
      · exact isclose_false_of_late w (by omega)
    have hcur4 : current < 4 := hbound current hcur
    have hrowcur : (graph.getD current []).length = 4 := by
      refine hrows _ ?_
      rw [List.getD_eq_getElem?_getD, List.getElem?_eq_getElem (by omega)]
      exact List.getElem_mem (by omega)
    -- the candidate row is nonempty: any unvisited vertex is accepted
    obtain ⟨u, hu4, hup⟩ := exists_unvisited hlt4
    have humem : (u, cellOf graph current u) ∈ current_row graph passed current := by
      rw [current_row, List.mem_filter]
      constructor
      · rw [cellOf]
        exact mem_enum_getD (by omega)
      · show check_vortex graph passed u = true
        refine check_vortex_true_of hup ?_
        intro w hw
        refine hno w ?_
        have : (graph.getD u []).length ≤ 4 := by
          rcases Nat.lt_or_ge u graph.length with hc | hc
          · refine le_of_eq (hrows _ ?_)
            rw [List.getD_eq_getElem?_getD, List.getElem?_eq_getElem hc]
            exact List.getElem_mem hc
          · rw [List.getD_eq_getElem?_getD, List.getElem?_eq_none hc]
            simp
        omega
    obtain ⟨⟨v, w⟩, hm⟩ := pyMin_isSome (List.ne_nil_of_mem humem)
    obtain ⟨hvp, hw, hvlen⟩ := mem_current_row (pyMin_mem hm)
    rw [hrowcur] at hvlen
    have hv4 : v < 4 := hvlen
    have hnd2 : (passed ++ [v]).Nodup := by
      rw [List.nodup_append]
      exact ⟨hnd, List.nodup_singleton v, by simpa [List.disjoint_singleton] using hvp⟩
    have hbound2 : ∀ x ∈ passed ++ [v], x < 4 := by
      intro x hx
      rcases List.mem_append.mp hx with hx | hx
      · exact hbound x hx
      · rw [List.mem_singleton] at hx
        omega
    have hlapp : (passed ++ [v]).length = passed.length + 1 := by simp
    rw [nnaLoop, hm]
    simp only
    by_cases hdone : (passed ++ [v]).length = graph.length
    · rw [if_pos hdone]
      refine ⟨[v], acc + w.untop' 0, rfl, ?_⟩
      rw [route_sum_pair, hw]
    · rw [if_neg hdone]
      have hlen2 : (passed ++ [v]).length < 4 := by omega
      obtain ⟨rest', total', heq, htot⟩ := ih (passed ++ [v]) v (acc + w.untop' 0)
        hnd2 hbound2 (List.mem_append.mpr (Or.inr (List.mem_singleton.mpr rfl)))
        (by simp) hlen2 (by omega)
      refine ⟨v :: rest', total', ?_, ?_⟩
      · rw [heq, List.append_assoc]
        rfl
      · rw [htot, route_sum_cons, hw]
        ring

/-- C3 (amended): on every fully connected 4-station matrix (all
off-diagonal entries finite) with pairwise distinct edge weights the
solver returns a sequence of length 4 that is a permutation of all 4
indices, and the reported total equals the sum of the consecutive edge
weights along that sequence WITHOUT the wrap edge from the last vertex
back to the first (the source never adds the wrap edge). -/
theorem nna_fully_connected_four (graph : List (List W)) (start : ℕ)
    (hlen : graph.length = 4) (hrows : ∀ row ∈ graph, row.length = 4)
    (hconn : ∀ i j : Fin 4, i ≠ j → cellOf graph (i : ℕ) (j : ℕ) ≠ ⊤)
    (hdist : ∀ i j k l : Fin 4, i ≠ j → k ≠ l → ((i : ℕ), (j : ℕ)) ≠ ((k : ℕ), (l : ℕ)) →
      cellOf graph (i : ℕ) (j : ℕ) ≠ cellOf graph (k : ℕ) (l : ℕ))
    (hstart : start < 4) :
    ∃ seq total, nearest_neighbor_algorithm graph start = some (seq, total) ∧
      seq.length = 4 ∧ seq.Perm (List.range 4) ∧ total = route_sum graph seq := by
  have hconn' : ∀ i j : ℕ, i < 4 → j < 4 → i ≠ j → cellOf graph i j ≠ ⊤ := by
    intro i j hi hj hij
    refine hconn ⟨i, hi⟩ ⟨j, hj⟩ ?_
    intro hf
    exact hij (congrArg Fin.val hf)
  obtain ⟨rest, total, heq, htot⟩ := nna_run_success graph hlen hrows hconn'
    graph.length [start] start 0 (List.nodup_singleton start) (by simpa using hstart)
    (List.mem_singleton.mpr rfl) (by simp) (by simp) (by simp [hlen])
  rw [nearest_neighbor_algorithm]
  refine ⟨[start] ++ rest, total, heq, ?_, ?_, ?_⟩
  · have hsq : ∀ row ∈ graph, row.length = graph.length := by
      intro row hrow
      rw [hlen]
      exact hrows row hrow
    have hinv := nnaLoop_some_inv graph hsq graph.length start [start] 0
      ([start] ++ rest) total heq (List.nodup_singleton start)
      (by simp only [List.mem_singleton, hlen]; rintro x rfl; exact hstart)
    omega
  · have hsq : ∀ row ∈ graph, row.length = graph.length := by
      intro row hrow
      rw [hlen]
      exact hrows row hrow
    have hinv := nnaLoop_some_inv graph hsq graph.length start [start] 0
      ([start] ++ rest) total heq (List.nodup_singleton start)
      (by simp only [List.mem_singleton, hlen]; rintro x rfl; exact hstart)
    refine perm_range_of_nodup hinv.1 ?_ ?_
    · intro x hx
      have := hinv.2.1 x hx
      omega
    · omega
  · rw [htot, zero_add]
    rfl

/-- C3 witness: a concrete fully connected 4-station matrix with distinct
weights. -/
theorem nna_fully_connected_four_witness :
    ∃ seq total,
      nearest_neighbor_algorithm
        [[⊤, ((11:ℚ):W), ((21:ℚ):W), ((31:ℚ):W)],
         [((41:ℚ):W), ⊤, ((51:ℚ):W), ((61:ℚ):W)],
         [((71:ℚ):W), ((81:ℚ):W), ⊤, ((91:ℚ):W)],
         [((101:ℚ):W), ((111:ℚ):W), ((121:ℚ):W), ⊤]] 0 = some (seq, total) ∧
      seq.length = 4 ∧ seq.Perm (List.range 4) ∧
      total = route_sum
        [[⊤, ((11:ℚ):W), ((21:ℚ):W), ((31:ℚ):W)],
         [((41:ℚ):W), ⊤, ((51:ℚ):W), ((61:ℚ):W)],
         [((71:ℚ):W), ((81:ℚ):W), ⊤, ((91:ℚ):W)],
         [((101:ℚ):W), ((111:ℚ):W), ((121:ℚ):W), ⊤]] seq :=
  nna_fully_connected_four
    [[⊤, ((11:ℚ):W), ((21:ℚ):W), ((31:ℚ):W)],
     [((41:ℚ):W), ⊤, ((51:ℚ):W), ((61:ℚ):W)],
     [((71:ℚ):W), ((81:ℚ):W), ⊤, ((91:ℚ):W)],
     [((101:ℚ):W), ((111:ℚ):W), ((121:ℚ):W), ⊤]] 0
    (by decide) (by decide) (by decide) (by decide) (by decide)

/-- C3 counterexample: on a concrete fully connected matrix with distinct
weights the solver reports 150 — the sum of its three traversed legs —
while the wrap-inclusive sum of the claim is 250. -/
theorem nna_wrap_edge_counterexample :
    nearest_neighbor_algorithm
      [[⊤, ((10:ℚ):W), ((20:ℚ):W), ((30:ℚ):W)],
       [((40:ℚ):W), ⊤, ((50:ℚ):W), ((60:ℚ):W)],
       [((70:ℚ):W), ((80:ℚ):W), ⊤, ((90:ℚ):W)],
       [((100:ℚ):W), ((110:ℚ):W), ((120:ℚ):W), ⊤]] 0
      = some ([0, 1, 2, 3],
          (0:ℚ) + (((10:ℚ):W)).untop' 0 + (((50:ℚ):W)).untop' 0 + (((90:ℚ):W)).untop' 0) ∧
    ((0:ℚ) + (((10:ℚ):W)).untop' 0 + (((50:ℚ):W)).untop' 0 + (((90:ℚ):W)).untop' 0) = 150 ∧
    route_sum_wrap
      [[⊤, ((10:ℚ):W), ((20:ℚ):W), ((30:ℚ):W)],
       [((40:ℚ):W), ⊤, ((50:ℚ):W), ((60:ℚ):W)],
       [((70:ℚ):W), ((80:ℚ):W), ⊤, ((90:ℚ):W)],
       [((100:ℚ):W), ((110:ℚ):W), ((120:ℚ):W), ⊤]] [0, 1, 2, 3] = 250 ∧
    (150 : ℚ) ≠ 250 := by
  refine ⟨by rfl, ?_, ?_, by norm_num⟩
  · show (0:ℚ) + 10 + 50 + 90 = 150
    norm_num
  · show (10:ℚ) + (50 + (90 + (100 + 0))) = 250
    norm_num

/-! ## C5 — the weight matrix cells -/

/-- Setting a cell preserves the number of rows. -/
theorem length_update2 (m : List (List W)) (i j : ℕ) (w : W) :
    (update2 m i j w).length = m.length := by
  simp [update2]

/-- Setting a cell preserves the row lengths. -/
theorem rows_update2 {m : List (List W)} {n : ℕ} (hrows : ∀ row ∈ m, row.length = n)
    (i j : ℕ) (w : W) (hi : i < m.length) :
    ∀ row ∈ update2 m i j w, row.length = n := by
  intro row hrow
  rcases List.mem_or_eq_of_mem_set hrow with h | h
  · exact hrows row h
  · subst h
    rw [List.length_set]
    refine hrows _ ?_
    rw [List.getD_eq_getElem?_getD, List.getElem?_eq_getElem hi]
    exact List.getElem_mem hi

/-- Reading back the cell just written. -/
theorem cellOf_update2_self {m : List (List W)} {i j : ℕ} (w : W)
    (hi : i < m.length) (hj : j < (m.getD i []).length) :
    cellOf (update2 m i j w) i j = w := by
  unfold cellOf update2
  rw [List.getD_eq_getElem?_getD (m.set i _), List.getElem?_set_eq_of_lt _ hi]
  simp only [Option.getD_some]
  rw [List.getD_eq_getElem?_getD ((m.getD i []).set j w), List.getElem?_set_eq_of_lt _ hj]
  rfl

/-- Writing one cell leaves every other cell unchanged. -/
theorem cellOf_update2_ne {m : List (List W)} {i j i' j' : ℕ} (w : W)
    (h : i ≠ i' ∨ j ≠ j') :
    cellOf (update2 m i j w) i' j' = cellOf m i' j' := by
  by_cases hii : i = i'
  · subst hii
    rcases h with h | h
    · exact absurd rfl h
    · unfold cellOf update2
      by_cases hi : i < m.length
      · rw [List.getD_eq_getElem?_getD (m.set i _), List.getElem?_set_eq_of_lt _ hi]
        simp only [Option.getD_some]
        rw [List.getD_eq_getElem?_getD ((m.getD i []).set j w),
          List.getElem?_set_ne h]
        exact (List.getD_eq_getElem?_getD _ _ _).symm
      · rw [List.getD_eq_getElem?_getD (m.set i _),
          List.getElem?_eq_none (by rw [List.length_set]; omega)]
        rw [List.getD_eq_getElem?_getD m, List.getElem?_eq_none (by omega)]
  · unfold cellOf update2
    rw [List.getD_eq_getElem?_getD (m.set i _), List.getElem?_set_ne hii,
      List.getD_eq_getElem?_getD m]

/-- One matrix-building step preserves the number of rows. -/
theorem length_wm_step (stations : List String) (gw : SchedRecord → ℚ)
    (m : List (List W)) (sch : SchedRecord) :
    (wm_step stations gw m sch).length = m.length := by
  simp only [wm_step]
  split
  · exact length_update2 m _ _ _
  · rfl

/-- One matrix-building step preserves the row lengths. -/
theorem rows_wm_step {stations : List String} {gw : SchedRecord → ℚ}
    {m : List (List W)} {n : ℕ} (hrows : ∀ row ∈ m, row.length = n)
    (hm : m.length = stations.length) (sch : SchedRecord)
    (ho : sch.origin ∈ stations) :
    ∀ row ∈ wm_step stations gw m sch, row.length = n := by
  simp only [wm_step]
  split
  · refine rows_update2 hrows _ _ _ ?_
    rw [hm]
    exact List.indexOf_lt_length.mpr ho
  · exact hrows

/-- A record addressing cell `(i, j)` lowers that cell to the minimum of
its old value and the record's weight. -/
theorem cellOf_wm_step_matched {stations : List String} {gw : SchedRecord → ℚ}
    {m : List (List W)} {sch : SchedRecord} {i j : ℕ}
    (hm : m.length = stations.length)
    (hrows : ∀ row ∈ m, row.length = stations.length)
    (ho : sch.origin ∈ stations) (hd : sch.dest ∈ stations)
    (hio : stations.indexOf sch.origin = i) (hjo : stations.indexOf sch.dest = j) :
    cellOf (wm_step stations gw m sch) i j = min (cellOf m i j) ((gw sch : ℚ) : W) := by
  have hi : i < m.length := by
    rw [hm, ← hio]
    exact List.indexOf_lt_length.mpr ho
  have hj : j < (m.getD i []).length := by
    have : (m.getD i []).length = stations.length := by
      refine hrows _ ?_
      rw [List.getD_eq_getElem?_getD, List.getElem?_eq_getElem hi]
      exact List.getElem_mem hi
    rw [this, ← hjo]
    exact List.indexOf_lt_length.mpr hd
  simp only [wm_step]
  rw [hio, hjo]
  rcases lt_or_ge ((gw sch : ℚ) : W) (cellOf m i j) with hlt | hge
  · rw [if_pos hlt, cellOf_update2_self _ hi hj, min_eq_right hlt.le]
  · rw [if_neg (not_lt.mpr hge), min_eq_left hge]

/-- A record addressing another cell leaves cell `(i, j)` unchanged. -/
theorem cellOf_wm_step_other {stations : List String} {gw : SchedRecord → ℚ}
    {m : List (List W)} {sch : SchedRecord} {i j : ℕ}
    (h : stations.indexOf sch.origin ≠ i ∨ stations.indexOf sch.dest ≠ j) :
    cellOf (wm_step stations gw m sch) i j = cellOf m i j := by
  simp only [wm_step]
  split
  · exact cellOf_update2_ne _ h
  · rfl

/-- Every cell of the initial matrix is infinity. -/
theorem cellOf_replicate_top (n i j : ℕ) :
    cellOf (List.replicate n (List.replicate n (⊤ : W))) i j = ⊤ := by
  unfold cellOf
  rcases Nat.lt_or_ge i n with hi | hi
  · rw [List.getD_eq_getElem?_getD (List.replicate n (List.replicate n (⊤ : W))) i,
      List.getElem?_replicate, if_pos (by simpa using hi)]
    simp only [Option.getD_some]
    rcases Nat.lt_or_ge j n with hj | hj
    · rw [List.getD_eq_getElem?_getD, List.getElem?_replicate, if_pos (by simpa using hj)]
      rfl
    · rw [List.getD_eq_getElem?_getD, List.getElem?_replicate, if_neg (by simp; omega)]
      rfl
  · rw [List.getD_eq_getElem?_getD (List.replicate n (List.replicate n (⊤ : W))) i,
      List.getElem?_replicate, if_neg (by simp; omega)]
    rfl

/-- Both endpoints of every record appear in the derived station list. -/
theorem mem_get_stations {schedules : List SchedRecord} {sch : SchedRecord}
    (h : sch ∈ schedules) :
    sch.origin ∈ get_stations schedules ∧ sch.dest ∈ get_stations schedules := by
  unfold get_stations
  constructor
  · rw [List.mem_mergeSort, List.mem_dedup, List.mem_append]
    exact Or.inl (List.mem_map_of_mem _ h)
  · rw [List.mem_mergeSort, List.mem_dedup, List.mem_append]
    exact Or.inr (List.mem_map_of_mem _ h)

/-- The matrix-building fold: after processing `l` from matrix `m`, cell
`(i, j)` is the minimum of its old value and the weights of the records of
`l` addressing `(i, j)`. -/
theorem wm_fold (stations : List String) (gw : SchedRecord → ℚ) (i j : ℕ) :
    ∀ (l : List SchedRecord) (m : List (List W)),
      m.length = stations.length →
      (∀ row ∈ m, row.length = stations.length) →
      (∀ sch ∈ l, sch.origin ∈ stations ∧ sch.dest ∈ stations) →
      cellOf (l.foldl (wm_step stations gw) m) i j
        = min (cellOf m i j)
          (((l.filter (fun sch => decide (stations.indexOf sch.origin = i) &&
              decide (stations.indexOf sch.dest = j))).map
            (fun sch => ((gw sch : ℚ) : W))).foldr min ⊤) := by
  intro l
  induction l with
  | nil =>
    intro m _ _ _
    simp
  | cons sch rest ih =>
    intro m hm hrows hmem
    rw [List.foldl_cons]
    have hsch := hmem sch (List.mem_cons_self sch rest)
    have hrest : ∀ s ∈ rest, s.origin ∈ stations ∧ s.dest ∈ stations :=
      fun s hs => hmem s (List.mem_cons_of_mem _ hs)
    have hm2 : (wm_step stations gw m sch).length = stations.length := by
      rw [length_wm_step, hm]
    have hrows2 := @rows_wm_step stations gw m stations.length hrows hm sch hsch.1
    rw [ih (wm_step stations gw m sch) hm2 hrows2 hrest]
    by_cases hmatch : stations.indexOf sch.origin = i ∧ stations.indexOf sch.dest = j
    · rw [cellOf_wm_step_matched hm hrows hsch.1 hsch.2 hmatch.1 hmatch.2]
      rw [List.filter_cons_of_pos
        (by rw [Bool.and_eq_true, decide_eq_true_eq, decide_eq_true_eq]; exact hmatch)]
      rw [List.map_cons, List.foldr_cons, min_assoc]
    · rw [cellOf_wm_step_other (by tauto)]
      rw [List.filter_cons_of_neg
        (by rw [Bool.and_eq_true, decide_eq_true_eq, decide_eq_true_eq]; exact hmatch)]

/-- C5: each cell `(i, j)` of the built weight matrix equals the minimum
strategy-weight among the records whose origin has index `i` and whose
destination has index `j` (as a fold of `min` over their weights, starting
from infinity), and equals infinity when no such record exists. -/
theorem weight_matrix_cell_min (schedules : List SchedRecord) (gw : SchedRecord → ℚ)
    (i j : ℕ) :
    cellOf (get_weight_matrix (get_stations schedules) gw schedules) i j
      = ((schedules.filter (fun sch =>
            decide ((get_stations schedules).indexOf sch.origin = i) &&
            decide ((get_stations schedules).indexOf sch.dest = j))).map
          (fun sch => ((gw sch : ℚ) : W))).foldr min ⊤ ∧
    (schedules.filter (fun sch =>
        decide ((get_stations schedules).indexOf sch.origin = i) &&
        decide ((get_stations schedules).indexOf sch.dest = j)) = [] →
      cellOf (get_weight_matrix (get_stations schedules) gw schedules) i j = ⊤) := by
  have hmain : cellOf (get_weight_matrix (get_stations schedules) gw schedules) i j
      = ((schedules.filter (fun sch =>
            decide ((get_stations schedules).indexOf sch.origin = i) &&
            decide ((get_stations schedules).indexOf sch.dest = j))).map
          (fun sch => ((gw sch : ℚ) : W))).foldr min ⊤ := by
    simp only [get_weight_matrix]
    rw [wm_fold (get_stations schedules) gw i j schedules _ (by simp)
      (fun row hrow => by rw [List.eq_of_mem_replicate hrow]; simp)
      (fun sch hs => mem_get_stations hs)]
    rw [cellOf_replicate_top]
    exact min_eq_right le_top
  refine ⟨hmain, fun hnil => ?_⟩
  rw [hmain, hnil]
  rfl
